import Mathlib

/-!
Shallow embedding of the Hyper-Goliath Beal-conjecture search engine
(C sources: hyper_goliath.h, sieve.c, precompute/parallel/main units,
the GMP verifier, the binary GCD utility and the JSONL logger), together
with proofs of the specified properties.

Machine integers are modelled as `Nat` with explicit reduction modulo
`2 ^ 64` at every operation where the C code can wrap (`uint64_t`
multiplication); loops are modelled either structurally or with an
explicit fuel argument that provably dominates the iteration count of
the corresponding `while` loop.
-/

/-- `2 ^ 64`, the modulus of `uint64_t` arithmetic. -/
def U64 : Nat := 2 ^ 64

/-- `NUM_SIEVE_PRIMES` from hyper_goliath.h. -/
def NUM_SIEVE_PRIMES : Nat := 20

/-- `SIEVE_PRIMES` from hyper_goliath.h: the fixed ordered 20 sieve primes. -/
def SIEVE_PRIMES : List Nat :=
  [2, 3, 5, 7, 11, 13, 17, 19, 23, 29, 31, 37, 41, 43, 47, 53, 59, 61, 67, 71]

/-- Body of the `while (exp > 0)` loop of `powmod` (hyper_goliath.h).
`fuel` bounds the iteration count; since `exp` at least halves each
iteration, `fuel = exp` always suffices.  Products are reduced modulo
`2 ^ 64` exactly where the C `uint64_t` multiplication can wrap. -/
def powmodLoop (m : Nat) : Nat → Nat → Nat → Nat → Nat
  | 0, _, result, _ => result
  | fuel + 1, base, result, exp =>
    if exp = 0 then result
    else
      powmodLoop m fuel (base * base % U64 % m)
        (if exp % 2 = 1 then result * base % U64 % m else result) (exp / 2)

/-- `powmod(base, exp, m)` from hyper_goliath.h: modular exponentiation
by repeated squaring on `uint64_t`, reducing `base` modulo `m` first. -/
def powmod (base : Nat) (exp : Nat) (m : Nat) : Nat :=
  powmodLoop m exp (base % m) 1 exp

/-- `get_bit128` from hyper_goliath.h: read bit `bit` of a two-word
(128-bit) mask. -/
def get_bit128 (mask : Nat × Nat) (bit : Nat) : Bool :=
  if bit < 64 then mask.1 &&& (1 <<< bit) != 0
  else mask.2 &&& (1 <<< (bit - 64)) != 0

/-- `set_bit128` from hyper_goliath.h: set bit `bit` of a two-word
(128-bit) mask (functional version of the in-place C update). -/
def set_bit128 (mask : Nat × Nat) (bit : Nat) : Nat × Nat :=
  if bit < 64 then (mask.1 ||| (1 <<< bit), mask.2)
  else (mask.1, mask.2 ||| (1 <<< (bit - 64)))

/-- `compute_residue_mask128(p, z, mask)` from precompute unit: set bit
`powmod(r, z, p)` for every `r` in `[0, p)`, starting from the zero mask. -/
def compute_residue_mask128 (p : Nat) (z : Nat) : Nat × Nat :=
  (List.range p).foldl (fun mask r => set_bit128 mask (powmod r z p)) (0, 0)

/-- `PrecomputedData` from hyper_goliath.h.  The C tables
`residue_masks[i]`, `ax_mod[A][i]` and `by_mod[i][B]` are modelled as
functions of their indices (the tables are filled once and read-only). -/
structure PrecomputedData where
  x : Nat
  y : Nat
  z : Nat
  residue_masks : Nat → Nat × Nat
  ax_mod : Nat → Nat → Nat
  by_mod : Nat → Nat → Nat
  A_max : Nat
  B_max : Nat

/-- `precompute_create(x, y, z, A_max, B_max)` from the precompute unit:
residue masks per prime, `ax_mod[A][i] = (uint8_t)powmod(A, x, p_i)` and
`by_mod[i][B] = (uint8_t)powmod(B, y, p_i)` (the `uint8_t` store is the
reduction modulo `256`). -/
def precompute_create (x y z A_max B_max : Nat) : PrecomputedData where
  x := x
  y := y
  z := z
  residue_masks := fun i => compute_residue_mask128 (SIEVE_PRIMES.getD i 0) z
  ax_mod := fun A i => powmod A x (SIEVE_PRIMES.getD i 0) % 256
  by_mod := fun i B => powmod B y (SIEVE_PRIMES.getD i 0) % 256
  A_max := A_max
  B_max := B_max

/-- One iteration of the prime loop of `sieve_survives_scalar` (sieve.c):
`sum = ax_mod[A][i] + by_mod[i][B]`, conditional subtraction of `p`,
then the residue-mask membership test. -/
def sievePrimeCheck (data : PrecomputedData) (A B i : Nat) : Bool :=
  let p := SIEVE_PRIMES.getD i 0
  let sum := data.ax_mod A i + data.by_mod i B
  let sum2 := if p ≤ sum then sum - p else sum
  get_bit128 (data.residue_masks i) sum2

/-- `sieve_survives_scalar(A, B, data)` from sieve.c: the pair survives
iff every one of the 20 sieve primes admits it (the C loop returns
`false` at the first failing prime; `List.all` short-circuits the same
way). -/
def sieve_survives_scalar (A B : Nat) (data : PrecomputedData) : Bool :=
  (List.range NUM_SIEVE_PRIMES).all (sievePrimeCheck data A B)

/-- `survivors &= ~(1 << l)` on a `uint8_t` lane mask (sieve.c): the
8-bit complement of `1 <<< l` is `255 ^^^ (1 <<< l)`. -/
def clearLane (s l : Nat) : Nat := s &&& (255 ^^^ (1 <<< l))

/-- One lane of the inner loop of `sieve_survives_avx2_8` (sieve.c):
skip dead lanes, clear lanes beyond `B_max`, otherwise run the same
per-prime check as the scalar sieve and clear the lane on failure. -/
def sieveLaneStep (data : PrecomputedData) (A B_start i : Nat) (s l : Nat) : Nat :=
  if s &&& (1 <<< l) = 0 then s
  else
    let B := B_start + l
    if data.B_max < B then clearLane s l
    else if sievePrimeCheck data A B i then s else clearLane s l

/-- One iteration of the outer prime loop of `sieve_survives_avx2_8`
(sieve.c), including the `if (!survivors) break` early exit. -/
def sievePrimeStep (data : PrecomputedData) (A B_start : Nat) (survivors i : Nat) : Nat :=
  if survivors = 0 then survivors
  else (List.range 8).foldl (fun s l => sieveLaneStep data A B_start i s l) survivors

/-- `sieve_survives_avx2_8(A, B_start, data)` from sieve.c: an 8-bit
survivor mask over the block `B_start .. B_start + 7`, starting from
`0xFF`. -/
def sieve_survives_avx2_8 (A B_start : Nat) (data : PrecomputedData) : Nat :=
  (List.range NUM_SIEVE_PRIMES).foldl (sievePrimeStep data A B_start) 0xFF

/-- `__builtin_ctzll` (count trailing zeros) modelled with fuel; the C
intrinsic is only applied to nonzero arguments, for which `fuel = n`
suffices. -/
def ctzAux : Nat → Nat → Nat
  | 0, _ => 0
  | fuel + 1, n => if n % 2 = 1 ∨ n = 0 then 0 else ctzAux fuel (n / 2) + 1

/-- Count of trailing zero bits of `n` (for `n ≠ 0`). -/
def ctz (n : Nat) : Nat := ctzAux n n

/-- The `do { ... } while (b)` loop of `gcd64` (binary GCD, utility
unit): strip factors of 2 from `b`, order the pair, subtract.  The
measure `a + b` strictly decreases every iteration, so `fuel = a + b`
at entry always suffices. -/
def gcdLoopAux : Nat → Nat → Nat → Nat
  | 0, a, _ => a
  | fuel + 1, a, b =>
    let b1 := b >>> ctz b
    let p := if b1 < a then (b1, a) else (a, b1)
    let b3 := p.2 - p.1
    if b3 = 0 then p.1 else gcdLoopAux fuel p.1 b3

/-- `gcd64(a, b)` from the utility unit: binary GCD on 64-bit integers. -/
def gcd64 (a b : Nat) : Nat :=
  if a = 0 then b
  else if b = 0 then a
  else
    let shift := ctz (a ||| b)
    gcdLoopAux (a + b) (a >>> ctz a) b <<< shift

/-- `count_sieve_survivors(A_start, A_end, B_start, B_end, data)` from
sieve.c: count the pairs in the rectangle with `gcd64(A, B) == 1` that
survive the scalar sieve.  The C `for (v = start; v <= end; v++)` loop
is the mapped `List.range (end + 1 - start)`. -/
def count_sieve_survivors (A_start A_end B_start B_end : Nat)
    (data : PrecomputedData) : Nat :=
  ((List.range (A_end + 1 - A_start)).map (A_start + ·)).foldl
    (fun c A =>
      ((List.range (B_end + 1 - B_start)).map (B_start + ·)).foldl
        (fun c2 B =>
          if gcd64 A B = 1 ∧ sieve_survives_scalar A B data = true then c2 + 1 else c2)
        c)
    0

/-- Helper for `mpz_root`: the largest `r ≤ bound` with `r ^ k ≤ n`
(or `0` when there is none). -/
def izRootAux (n k : Nat) : Nat → Nat
  | 0 => 0
  | r + 1 => if (r + 1) ^ k ≤ n then r + 1 else izRootAux n k r

/-- `mpz_root(root, n, k)` of GMP, as used by the verifier: the
truncated integer `k`-th root of `n` (the candidate root never exceeds
`n` itself, so `bound = n` is exact). -/
def izRoot (n k : Nat) : Nat := izRootAux n k n

/-- `check_beal_hit_gmp(A, B, x, y, z, C_max, &out_C, &out_gcd)` from
the GMP verifier: compute `A^x + B^y` exactly, take the integer `z`-th
root with an exactness test (`mpz_root`), require the root to fit in a
64-bit `unsigned long` (`mpz_fits_ulong_p`) and to lie in `[1, C_max]`.
The C out-parameters are modelled by threading their prior values
`out_C`, `out_gcd`: the triple returned is
`(hit, final out_C, final out_gcd)`. -/
def check_beal_hit_gmp (A B x y z C_max out_C out_gcd : Nat) : Bool × Nat × Nat :=
  let sum := A ^ x + B ^ y
  let root := izRoot sum z
  let is_perfect := root ^ z = sum
  if is_perfect then
    if root < U64 then
      let C := root
      if C ≤ C_max ∧ 0 < C then (true, C, gcd64 A (gcd64 B C))
      else (false, out_C, out_gcd)
    else (false, out_C, out_gcd)
  else (false, out_C, out_gcd)

/-- `BealHit` from hyper_goliath.h. -/
structure BealHit where
  A : Nat
  B : Nat
  C : Nat
  gcd : Nat
  x : Nat
  y : Nat
  z : Nat

/-- The counters and hit list of `SearchResults` that the search loop
of `search_parallel` (parallel unit) accumulates. -/
structure SearchResults where
  total_pairs : Nat
  gcd_filtered : Nat
  mod_filtered : Nat
  exact_checks : Nat
  hits : List BealHit

/-- The lanes processed by the inner loop
`for (lane = 0; lane < 8 && B + lane <= B_max; lane++)` of
`search_parallel`. -/
def laneList (B B_max : Nat) : List Nat :=
  (List.range 8).takeWhile (fun l => B + l ≤ B_max)

/-- The per-pair body of the search loop of `search_parallel` (AVX2
path): count the pair, then classify it by the GCD skip, the sieve
lane bit, and otherwise the exact GMP check (appending any hit). -/
def processLane (x y z C_max : Nat) (A B survivors : Nat)
    (acc : SearchResults) (lane : Nat) : SearchResults :=
  let B_val := B + lane
  let acc1 : SearchResults := { acc with total_pairs := acc.total_pairs + 1 }
  if 1 < gcd64 A B_val then { acc1 with gcd_filtered := acc1.gcd_filtered + 1 }
  else if survivors &&& (1 <<< lane) = 0 then
    { acc1 with mod_filtered := acc1.mod_filtered + 1 }
  else
    let acc2 : SearchResults := { acc1 with exact_checks := acc1.exact_checks + 1 }
    let r := check_beal_hit_gmp A B_val x y z C_max 0 0
    if r.1 then { acc2 with hits := acc2.hits ++ [⟨A, B_val, r.2.1, r.2.2, x, y, z⟩] }
    else acc2

/-- The B-block loop `for (B = B_start; B <= B_max; B += 8)` of
`search_parallel`: one AVX2 survivor mask per block, then the per-lane
pipeline.  `fuel` bounds the iteration count; since `B` grows by 8 each
pass, `fuel = B_max + 1 - B` at entry always suffices. -/
def bBlockLoop (x y z C_max : Nat) (data : PrecomputedData) (A B_max : Nat) :
    Nat → Nat → SearchResults → SearchResults
  | 0, _, acc => acc
  | fuel + 1, B, acc =>
    if B ≤ B_max then
      let survivors := sieve_survives_avx2_8 A B data
      bBlockLoop x y z C_max data A B_max fuel (B + 8)
        ((laneList B B_max).foldl (processLane x y z C_max A B survivors) acc)
    else acc

/-- The search loop of `search_parallel` (parallel unit), sequentially:
the A axis drives the outer loop, counters start at zero, and each A
runs the B-block pipeline.  OpenMP distributes the A iterations over
threads and merges the per-A counters with `fetch_add`; the totals are
order-insensitive sums, so the sequential model has the same final
counters and hit multiset. -/
def search_parallel (x y z A_start A_max B_start B_max C_max : Nat) : SearchResults :=
  let data := precompute_create x y z A_max B_max
  ((List.range (A_max + 1 - A_start)).map (A_start + ·)).foldl
    (fun acc A => bBlockLoop x y z C_max data A B_max (B_max + 1 - B_start) B_start acc)
    ⟨0, 0, 0, 0, []⟩

/-- `results->power_hits = results->hits_count` (finalization of
`search_parallel`). -/
def power_hits (r : SearchResults) : Nat := r.hits.length

/-- `results->primitive_hits`: the number of recorded hits with
`gcd == 1` (finalization of `search_parallel`). -/
def primitive_hits (r : SearchResults) : Nat :=
  (r.hits.filter (fun h => h.gcd = 1)).length

/-- The exit path of `main` (main.c): the usage checks in order
(exponents `< 3`, start values `< 1`, max `< start`) each return `1`
before any search work; otherwise the search runs and the process
returns `42` when `primitive_hits > 0` and `0` otherwise. -/
def main_exit (x y z A_start A_max B_start B_max C_max : Nat) : Nat :=
  if x < 3 ∨ y < 3 ∨ z < 3 then 1
  else if A_start < 1 ∨ B_start < 1 then 1
  else if A_max < A_start ∨ B_max < B_start then 1
  else if 0 < primitive_hits (search_parallel x y z A_start A_max B_start B_max C_max)
  then 42 else 0

/-- One absorption step of the FNV-1a loop in `log_complete` (logging
unit): `hash ^= field; hash *= FNV_PRIME;` on `uint64_t`. -/
def fnvStep (h v : Nat) : Nat := (h ^^^ v) * 1099511628211 % U64

/-- The `integrity_hash` computed by `log_complete` (logging unit): the
fourteen fields absorbed in program order starting from the FNV offset
basis. -/
def log_complete_hash (x y z A_start A_max B_start B_max C_max total_pairs
    gcd_filtered mod_filtered exact_checks power_hits primitive_hits : Nat) : Nat :=
  let h := 14695981039346656037
  let h := fnvStep h x
  let h := fnvStep h y
  let h := fnvStep h z
  let h := fnvStep h A_start
  let h := fnvStep h A_max
  let h := fnvStep h B_start
  let h := fnvStep h B_max
  let h := fnvStep h C_max
  let h := fnvStep h total_pairs
  let h := fnvStep h gcd_filtered
  let h := fnvStep h mod_filtered
  let h := fnvStep h exact_checks
  let h := fnvStep h power_hits
  fnvStep h primitive_hits

/-- Specification-side 64-bit FNV-1a (from the spec's words): start at
the offset basis `0xCBF29CE484222325`, and for each absorbed 64-bit
quantity XOR it in and multiply by the FNV prime `0x100000001B3`, all
modulo `2 ^ 64`. -/
def fnv1a64 (fields : List Nat) : Nat :=
  fields.foldl (fun h v => (h ^^^ v) * 0x100000001B3 % 2 ^ 64) 0xCBF29CE484222325

/-! ### Correctness of `powmod` -/

theorem powmodLoop_exp_zero (m fuel base result : Nat) :
    powmodLoop m fuel base result 0 = result := by
  cases fuel <;> simp [powmodLoop]

theorem powmodLoop_eq (m : Nat) (hm : 2 ≤ m) (hm2 : m * m ≤ U64) :
    ∀ fuel exp base result, exp ≤ fuel → base < m → result < m →
      powmodLoop m fuel base result exp = result * base ^ exp % m := by
  intro fuel
  induction fuel with
  | zero =>
    intro exp base result hle hb hr
    have hexp : exp = 0 := by omega
    subst hexp
    simp [powmodLoop, Nat.mod_eq_of_lt hr]
  | succ fuel ih =>
    intro exp base result hle hb hr
    by_cases hexp : exp = 0
    · subst hexp
      simp [powmodLoop, Nat.mod_eq_of_lt hr]
    · have hb2 : base * base < U64 := lt_of_lt_of_le (Nat.mul_lt_mul'' hb hb) hm2
      have hrb : result * base < U64 := lt_of_lt_of_le (Nat.mul_lt_mul'' hr hb) hm2
      have hmpos : 0 < m := by omega
      have hrec : exp / 2 ≤ fuel := by
        have := Nat.div_lt_self (Nat.pos_of_ne_zero hexp) (by norm_num : 1 < 2)
        omega
      have hbase' : base * base % U64 % m < m := Nat.mod_lt _ hmpos
      rw [powmodLoop, if_neg hexp]
      rcases Nat.mod_two_eq_zero_or_one exp with hpar | hpar
      · have hsplit : (base * base) ^ (exp / 2) = base ^ exp := by
          rw [← Nat.pow_two, ← Nat.pow_mul]
          congr 1
          omega
        rw [if_neg (by omega)]
        rw [ih (exp / 2) _ _ hrec hbase' hr]
        rw [Nat.mod_eq_of_lt hb2]
        have h : result * (base * base % m) ^ (exp / 2) ≡
            result * (base * base) ^ (exp / 2) [MOD m] :=
          (Nat.ModEq.refl result).mul ((Nat.mod_modEq _ m).pow _)
        rw [hsplit] at h
        exact h
      · have hres' : result * base % U64 % m < m := Nat.mod_lt _ hmpos
        rw [if_pos hpar]
        rw [ih (exp / 2) _ _ hrec hbase' hres']
        rw [Nat.mod_eq_of_lt hb2, Nat.mod_eq_of_lt hrb]
        have h : result * base % m * (base * base % m) ^ (exp / 2) ≡
            result * base * (base * base) ^ (exp / 2) [MOD m] :=
          (Nat.mod_modEq _ m).mul ((Nat.mod_modEq _ m).pow _)
        have hsplit : result * base * (base * base) ^ (exp / 2) = result * base ^ exp := by
          rw [mul_assoc, ← Nat.pow_two, ← Nat.pow_mul, ← pow_succ']
          congr 2
          omega
        rw [hsplit] at h
        exact h

/-- Correctness of `powmod` for moduli whose square fits in `uint64_t`
(in particular all sieve primes, `m ≤ 71`): no intermediate product
wraps. -/
theorem powmod_eq (base exp m : Nat) (hm : 2 ≤ m) (hm2 : m * m ≤ U64) :
    powmod base exp m = base ^ exp % m := by
  unfold powmod
  rw [powmodLoop_eq m hm hm2 exp exp (base % m) 1 le_rfl
    (Nat.mod_lt _ (by omega)) (by omega)]
  rw [one_mul, ← Nat.pow_mod]

theorem powmodLoop_one (fuel : Nat) :
    ∀ exp result, 1 ≤ exp → exp ≤ fuel → powmodLoop 1 fuel 0 result exp = 0 := by
  induction fuel with
  | zero => intro exp result h1 h2; omega
  | succ fuel ih =>
    intro exp result h1 h2
    rw [powmodLoop, if_neg (by omega)]
    have hz : (0 : Nat) * 0 % U64 % 1 = 0 := by decide
    rcases Nat.mod_two_eq_zero_or_one exp with hpar | hpar
    · rw [if_neg (by omega), hz]
      exact ih (exp / 2) result (by omega) (by omega)
    · rw [if_pos hpar, hz]
      have hres : result * 0 % U64 % 1 = 0 := by simp
      rw [hres]
      by_cases hh : exp / 2 = 0
      · rw [hh, powmodLoop_exp_zero]
      · exact ih (exp / 2) 0 (by omega) (by omega)

/-- For modulus `1` the loop is still correct as soon as `exp ≥ 1`
(the only incorrect point of `powmod` at small moduli is
`m = 1, exp = 0`, where the C code returns `1`). -/
theorem powmod_one (base exp : Nat) (h : 1 ≤ exp) : powmod base exp 1 = 0 := by
  unfold powmod
  rw [Nat.mod_one]
  exact powmodLoop_one exp exp 1 h le_rfl

/-! ### 128-bit mask lemmas -/

theorem and_one_shiftLeft (w b : Nat) : (w &&& (1 <<< b) != 0) = w.testBit b := by
  rw [Nat.one_shiftLeft, Nat.and_two_pow]
  cases h : w.testBit b <;> simp [Nat.pos_iff_ne_zero, Nat.pos_pow_of_pos]

theorem get_bit128_eq_testBit (m : Nat × Nat) (b : Nat) :
    get_bit128 m b = if b < 64 then m.1.testBit b else m.2.testBit (b - 64) := by
  unfold get_bit128
  split <;> rw [and_one_shiftLeft]

theorem get_bit128_zero (b : Nat) : get_bit128 (0, 0) b = false := by
  rw [get_bit128_eq_testBit]
  split <;> simp

theorem get_bit128_set_bit128 (m : Nat × Nat) (b b' : Nat) (hb : b < 128) :
    get_bit128 (set_bit128 m b) b' = (get_bit128 m b' || decide (b' = b)) := by
  rw [get_bit128_eq_testBit, get_bit128_eq_testBit]
  unfold set_bit128
  by_cases h1 : b < 64 <;> by_cases h2 : b' < 64
  · simp only [h1, h2, if_pos, if_true]
    rw [Nat.one_shiftLeft, Nat.testBit_or, Nat.testBit_two_pow]
    congr 1
    rw [decide_eq_decide]
    exact eq_comm
  · simp only [h1, h2, if_pos, if_neg, if_true, if_false]
    rw [show (decide (b' = b)) = false from decide_eq_false (by omega), Bool.or_false]
  · simp only [h1, h2, if_pos, if_neg, if_true, if_false]
    rw [show (decide (b' = b)) = false from decide_eq_false (by omega), Bool.or_false]
  · simp only [h1, h2, if_neg, if_false]
    rw [Nat.one_shiftLeft, Nat.testBit_or, Nat.testBit_two_pow]
    congr 1
    rw [decide_eq_decide]
    omega

/-! ### The residue mask is exactly the z-th power residue set -/

theorem get_bit128_foldl_set (f : Nat → Nat) (hf : ∀ r, f r < 128) :
    ∀ (L : List Nat) (mask : Nat × Nat) (b : Nat),
      get_bit128 (L.foldl (fun m r => set_bit128 m (f r)) mask) b =
        (get_bit128 mask b || L.any (fun r => decide (f r = b))) := by
  intro L
  induction L with
  | nil => simp
  | cons r L ih =>
    intro mask b
    rw [List.foldl_cons, ih, List.any_cons]
    rw [get_bit128_set_bit128 mask (f r) b (hf r)]
    rw [show (decide (b = f r)) = (decide (f r = b)) by simp [eq_comm]]
    rw [Bool.or_assoc]

theorem sieve_prime_square_le (p : Nat) (h : p ≤ 127) : p * p ≤ U64 := by
  have : p * p ≤ 127 * 127 := Nat.mul_le_mul h h
  unfold U64
  omega

/-- Bit `b` of `compute_residue_mask128 p z` is set exactly when `b` is
the `z`-th power residue `s ^ z mod p` of some `s ∈ [0, p)`. -/
theorem compute_residue_mask128_bit (p z b : Nat) (hp : 2 ≤ p) (hp127 : p ≤ 127) :
    get_bit128 (compute_residue_mask128 p z) b = true ↔ ∃ s, s < p ∧ s ^ z % p = b := by
  have hf : ∀ r : Nat, powmod r z p < 128 := by
    intro r
    rw [powmod_eq r z p hp (sieve_prime_square_le p hp127)]
    have : r ^ z % p < p := Nat.mod_lt _ (by omega)
    omega
  unfold compute_residue_mask128
  rw [get_bit128_foldl_set (fun r => powmod r z p) hf, get_bit128_zero, Bool.false_or]
  rw [List.any_eq_true]
  constructor
  · rintro ⟨s, hs, hsb⟩
    refine ⟨s, List.mem_range.mp hs, ?_⟩
    rw [← powmod_eq s z p hp (sieve_prime_square_le p hp127)]
    simpa using hsb
  · rintro ⟨s, hs, hsb⟩
    refine ⟨s, List.mem_range.mpr hs, ?_⟩
    simp only [decide_eq_true_eq]
    rw [powmod_eq s z p hp (sieve_prime_square_le p hp127)]
    exact hsb

/-! ### The scalar sieve on precomputed tables -/

theorem condSub_eq_mod (a bv p : Nat) (ha : a < p) (hb : bv < p) :
    (if p ≤ a + bv then a + bv - p else a + bv) = (a + bv) % p := by
  split
  · rw [Nat.mod_eq_sub_mod (by omega), Nat.mod_eq_of_lt (by omega)]
  · rw [Nat.mod_eq_of_lt (by omega)]

theorem sieve_primes_facts :
    ∀ i, i < 20 → 2 ≤ SIEVE_PRIMES.getD i 0 ∧ SIEVE_PRIMES.getD i 0 ≤ 71 := by
  decide

/-- On tables built by `precompute_create`, the per-prime sieve check
tests exactly whether `(A^x + B^y) mod p_i` is a masked residue. -/
theorem sievePrimeCheck_precompute (x y z A_max B_max A B i : Nat) (hi : i < 20) :
    sievePrimeCheck (precompute_create x y z A_max B_max) A B i =
      get_bit128 (compute_residue_mask128 (SIEVE_PRIMES.getD i 0) z)
        ((A ^ x + B ^ y) % SIEVE_PRIMES.getD i 0) := by
  obtain ⟨hp2, hp71⟩ := sieve_primes_facts i hi
  set p := SIEVE_PRIMES.getD i 0 with hpdef
  have hsq : p * p ≤ U64 := sieve_prime_square_le p (by omega)
  unfold sievePrimeCheck precompute_create
  simp only [← hpdef]
  rw [powmod_eq A x p hp2 hsq, powmod_eq B y p hp2 hsq]
  have hax : A ^ x % p % 256 = A ^ x % p :=
    Nat.mod_eq_of_lt (by have := Nat.mod_lt (A ^ x) (show 0 < p by omega); omega)
  have hby : B ^ y % p % 256 = B ^ y % p :=
    Nat.mod_eq_of_lt (by have := Nat.mod_lt (B ^ y) (show 0 < p by omega); omega)
  rw [hax, hby]
  rw [condSub_eq_mod _ _ p (Nat.mod_lt _ (by omega)) (Nat.mod_lt _ (by omega))]
  rw [Nat.add_mod (A ^ x) (B ^ y) p]

/-! ### Claim C1: sieve soundness -/

/-- C1: for every signature `(x, y, z)` with `x, y, z ≥ 3` and tables
built by `precompute_create(x, y, z, A_max, B_max)`, and every pair
`(A, B)` with `1 ≤ A ≤ A_max` and `1 ≤ B ≤ B_max`, if some positive
integer `C` satisfies `A^x + B^y = C^z`, then `sieve_survives_scalar`
returns `true`: the sieve never kills a true solution. -/
theorem sieve_survives_scalar_sound
    (x y z A_max B_max A B C : Nat)
    (hx : 3 ≤ x) (hy : 3 ≤ y) (hz : 3 ≤ z)
    (hA1 : 1 ≤ A) (hA2 : A ≤ A_max) (hB1 : 1 ≤ B) (hB2 : B ≤ B_max)
    (hC : 1 ≤ C) (heq : A ^ x + B ^ y = C ^ z) :
    sieve_survives_scalar A B (precompute_create x y z A_max B_max) = true := by
  unfold sieve_survives_scalar
  rw [List.all_eq_true]
  intro i hi
  have hi20 : i < 20 := List.mem_range.mp hi
  rw [sievePrimeCheck_precompute x y z A_max B_max A B i hi20]
  obtain ⟨hp2, hp71⟩ := sieve_primes_facts i hi20
  rw [compute_residue_mask128_bit _ z _ hp2 (by omega)]
  refine ⟨C % SIEVE_PRIMES.getD i 0, Nat.mod_lt _ (by omega), ?_⟩
  rw [← Nat.pow_mod, ← heq]

/-- Witness for C1 at the concrete true solution `2^3 + 2^3 = 2^4`. -/
theorem sieve_survives_scalar_sound_witness :
    sieve_survives_scalar 2 2 (precompute_create 3 3 4 2 2) = true :=
  sieve_survives_scalar_sound 3 3 4 2 2 2 2 2 (by decide) (by decide) (by decide)
    (by decide) (by decide) (by decide) (by decide) (by decide) (by decide)

/-! ### Claim C2: residue mask exactness -/

/-- C2: for every sieve prime `p` and every `z ≥ 3`, bit `r` of the
128-bit mask built by `compute_residue_mask128 p z` is set iff some
`s ∈ [0, p)` has `s^z ≡ r (mod p)`; in particular for `p = 71, z = 3`
bit 70 (upper word) is set. -/
theorem compute_residue_mask128_exact :
    (∀ p, p ∈ SIEVE_PRIMES → ∀ z, 3 ≤ z → ∀ r, r < 128 →
      (get_bit128 (compute_residue_mask128 p z) r = true ↔
        ∃ s, s < p ∧ s ^ z % p = r)) ∧
    get_bit128 (compute_residue_mask128 71 3) 70 = true := by
  constructor
  · intro p hp z hz r hr
    have hp2 : 2 ≤ p ∧ p ≤ 127 := by fin_cases hp <;> norm_num
    exact compute_residue_mask128_bit p z r hp2.1 hp2.2
  · decide

/-- Witness for C2: cubes mod 7 contain `6 = 3^3 mod 7`. -/
theorem compute_residue_mask128_exact_witness :
    get_bit128 (compute_residue_mask128 7 3) 6 = true :=
  (compute_residue_mask128_exact.1 7 (by decide) 3 (by decide) 6
    (by decide)).mpr ⟨3, by decide, by decide⟩

/-! ### Claim C3: scalar / 8-lane equivalence -/

theorem and_one_shiftLeft_eq_zero (w b : Nat) :
    (w &&& (1 <<< b) = 0) ↔ w.testBit b = false := by
  rw [Nat.one_shiftLeft, Nat.and_two_pow]
  cases h : w.testBit b <;> simp [Nat.pos_iff_ne_zero, Nat.pos_pow_of_pos]

theorem clearLane_testBit (s l l' : Nat) (hl : l < 8) (hl' : l' < 8) :
    (clearLane s l).testBit l' = (s.testBit l' && !(decide (l' = l))) := by
  unfold clearLane
  rw [Nat.one_shiftLeft, Nat.testBit_and, Nat.testBit_xor, Nat.testBit_two_pow]
  have h255 : (255 : Nat).testBit l' = true := by
    rw [show (255 : Nat) = 2 ^ 8 - 1 by norm_num, Nat.testBit_two_pow_sub_one]
    simpa using hl'
  rw [h255, Bool.true_xor]
  congr 2
  rw [decide_eq_decide]
  exact eq_comm

/-- The survival condition of one lane at one prime: the lane's B value
is within `B_max` and the per-prime check passes. -/
def laneCond (data : PrecomputedData) (A B_start i l : Nat) : Bool :=
  decide (B_start + l ≤ data.B_max) && sievePrimeCheck data A (B_start + l) i

theorem sieveLaneStep_testBit (data : PrecomputedData) (A B_start i s l l' : Nat)
    (hl : l < 8) (hl' : l' < 8) :
    (sieveLaneStep data A B_start i s l).testBit l' =
      if l' = l then (s.testBit l && laneCond data A B_start i l)
      else s.testBit l' := by
  unfold sieveLaneStep laneCond
  by_cases hdead : s &&& (1 <<< l) = 0
  · have hbit : s.testBit l = false := (and_one_shiftLeft_eq_zero s l).mp hdead
    rw [if_pos hdead]
    split
    · rename_i hll
      subst hll
      rw [hbit, Bool.false_and]
    · rfl
  · have hbit : s.testBit l = true := by
      rcases Bool.eq_false_or_eq_true (s.testBit l) with h | h
      · exact h
      · exact absurd ((and_one_shiftLeft_eq_zero s l).mpr h) hdead
    rw [if_neg hdead]
    by_cases hB : data.B_max < B_start + l
    · rw [if_pos hB, clearLane_testBit s l l' hl hl']
      split
      · rename_i hll
        rw [show (decide (B_start + l ≤ data.B_max)) = false from
            decide_eq_false (by omega)]
        simp [hll]
      · rename_i hll
        simp [hll]
    · rw [if_neg hB]
      have hBle : (decide (B_start + l ≤ data.B_max)) = true :=
        decide_eq_true (by omega)
      by_cases hchk : sievePrimeCheck data A (B_start + l) i = true
      · rw [if_pos hchk]
        split
        · rename_i hll
          subst hll
          rw [hbit, hBle, hchk]
          rfl
        · rfl
      · have hchk' : sievePrimeCheck data A (B_start + l) i = false :=
          Bool.eq_false_iff.mpr hchk
        rw [if_neg hchk, clearLane_testBit s l l' hl hl']
        split
        · rename_i hll
          rw [hchk', hBle]
          simp [hll]
        · rename_i hll
          simp [hll]

theorem laneFold_testBit (data : PrecomputedData) (A B_start i : Nat) :
    ∀ (M : List Nat) (s l : Nat), l < 8 → (∀ m ∈ M, m < 8) →
      ((M.foldl (fun s2 l2 => sieveLaneStep data A B_start i s2 l2) s).testBit l) =
        (s.testBit l && (!(decide (l ∈ M)) || laneCond data A B_start i l)) := by
  intro M
  induction M with
  | nil => intro s l hl _; simp
  | cons m M ih =>
    intro s l hl hM
    rw [List.foldl_cons, ih _ l hl (fun a ha => hM a (List.mem_cons_of_mem m ha))]
    rw [sieveLaneStep_testBit data A B_start i s m l
      (hM m (List.mem_cons_self m M)) hl]
    by_cases hlm : l = m
    · subst hlm
      rw [if_pos rfl]
      have hmem : (decide (l ∈ l :: M)) = true := decide_eq_true (List.mem_cons_self l M)
      rw [hmem]
      cases s.testBit l <;> cases laneCond data A B_start i l <;>
        cases (decide (l ∈ M)) <;> rfl
    · rw [if_neg hlm]
      have hmem : (decide (l ∈ m :: M)) = (decide (l ∈ M)) := by
        rw [decide_eq_decide]
        constructor
        · intro h
          rcases List.mem_cons.mp h with h | h
          · exact absurd h hlm
          · exact h
        · exact List.mem_cons_of_mem m
      rw [hmem]

theorem sievePrimeStep_testBit (data : PrecomputedData) (A B_start survivors i l : Nat)
    (hl : l < 8) :
    (sievePrimeStep data A B_start survivors i).testBit l =
      (survivors.testBit l && laneCond data A B_start i l) := by
  unfold sievePrimeStep
  by_cases h0 : survivors = 0
  · subst h0
    simp
  · rw [if_neg h0]
    rw [laneFold_testBit data A B_start i (List.range 8) survivors l hl
      (fun m hm => List.mem_range.mp hm)]
    rw [show (decide (l ∈ List.range 8)) = true from
      decide_eq_true (List.mem_range.mpr hl)]
    rfl

theorem primeFold_testBit (data : PrecomputedData) (A B_start : Nat) :
    ∀ (L : List Nat) (survivors l : Nat), l < 8 →
      ((L.foldl (sievePrimeStep data A B_start) survivors).testBit l) =
        (survivors.testBit l && L.all (fun i => laneCond data A B_start i l)) := by
  intro L
  induction L with
  | nil => intro s l hl; simp
  | cons i L ih =>
    intro s l hl
    rw [List.foldl_cons, ih _ l hl, sievePrimeStep_testBit data A B_start s i l hl,
      List.all_cons, Bool.and_assoc]

theorem sieve_survives_avx2_8_testBit (data : PrecomputedData) (A B_start l : Nat)
    (hl : l < 8) :
    (sieve_survives_avx2_8 A B_start data).testBit l =
      (List.range NUM_SIEVE_PRIMES).all (fun i => laneCond data A B_start i l) := by
  unfold sieve_survives_avx2_8
  rw [primeFold_testBit data A B_start (List.range NUM_SIEVE_PRIMES) 0xFF l hl]
  have h255 : (0xFF : Nat).testBit l = true := by
    rw [show (0xFF : Nat) = 2 ^ 8 - 1 by norm_num, Nat.testBit_two_pow_sub_one]
    simpa using hl
  rw [h255, Bool.true_and]

/-- C3: bit `l` of the 8-lane sieve equals the scalar sieve's decision
at `B_start + l` when `B_start + l ≤ B_max`, and is cleared when
`B_start + l > B_max` — for every block alignment and every data table. -/
theorem sieve_survives_avx2_8_lane_equiv (data : PrecomputedData) (A B_start l : Nat)
    (hA : A ≤ data.A_max) (hl : l < 8) :
    (B_start + l ≤ data.B_max →
      (sieve_survives_avx2_8 A B_start data).testBit l =
        sieve_survives_scalar A (B_start + l) data) ∧
    (data.B_max < B_start + l →
      (sieve_survives_avx2_8 A B_start data).testBit l = false) := by
  constructor
  · intro hB
    rw [sieve_survives_avx2_8_testBit data A B_start l hl]
    have hcond : ∀ i, laneCond data A B_start i l =
        sievePrimeCheck data A (B_start + l) i := by
      intro i
      unfold laneCond
      rw [decide_eq_true hB, Bool.true_and]
    simp only [hcond]
    rfl
  · intro hB
    rw [sieve_survives_avx2_8_testBit data A B_start l hl]
    rw [List.all_eq_false]
    refine ⟨0, by simp [NUM_SIEVE_PRIMES], ?_⟩
    unfold laneCond
    rw [show (decide (B_start + l ≤ data.B_max)) = false from
      decide_eq_false (by omega)]
    simp

/-- Witness for C3 at `A = 2`, `B_start = 1`, lane `3` on the tables
for signature `(3, 3, 4)` with `A_max = B_max = 2`:
`B_start + 3 > B_max` clears the lane, while lane `1` agrees with the
scalar sieve at `B = 2`. -/
theorem sieve_survives_avx2_8_lane_equiv_witness :
    ((sieve_survives_avx2_8 2 1 (precompute_create 3 3 4 2 2)).testBit 1 =
      sieve_survives_scalar 2 2 (precompute_create 3 3 4 2 2)) ∧
    ((sieve_survives_avx2_8 2 1 (precompute_create 3 3 4 2 2)).testBit 3 = false) :=
  ⟨(sieve_survives_avx2_8_lane_equiv (precompute_create 3 3 4 2 2) 2 1 1
      (by decide) (by decide)).1 (by decide),
   (sieve_survives_avx2_8_lane_equiv (precompute_create 3 3 4 2 2) 2 1 3
      (by decide) (by decide)).2 (by decide)⟩

/-! ### Correctness of the binary GCD (`gcd64`) -/

theorem ctzAux_spec :
    ∀ fuel n, n ≠ 0 → n ≤ fuel →
      2 ^ ctzAux fuel n ∣ n ∧ n / 2 ^ ctzAux fuel n % 2 = 1 := by
  intro fuel
  induction fuel with
  | zero => intro n h1 h2; omega
  | succ fuel ih =>
    intro n h1 h2
    unfold ctzAux
    by_cases hodd : n % 2 = 1 ∨ n = 0
    · rw [if_pos hodd]
      simpa using (by omega : n % 2 = 1)
    · rw [if_neg hodd]
      have hev : n % 2 = 0 := by omega
      have hn2 : n / 2 ≠ 0 := by omega
      have hle : n / 2 ≤ fuel := by omega
      obtain ⟨hdvd, hquot⟩ := ih (n / 2) hn2 hle
      constructor
      · obtain ⟨m, hm⟩ := hdvd
        refine ⟨m, ?_⟩
        rw [pow_succ, mul_comm (2 ^ ctzAux fuel (n / 2)) 2, mul_assoc, ← hm]
        omega
      · rw [pow_succ, mul_comm (2 ^ ctzAux fuel (n / 2)) 2, ← Nat.div_div_eq_div_mul]
        exact hquot

theorem ctz_spec (n : Nat) (h : n ≠ 0) :
    2 ^ ctz n ∣ n ∧ n / 2 ^ ctz n % 2 = 1 :=
  ctzAux_spec n n h le_rfl

theorem div_pow_succ_even (n k : Nat) (h : 2 ^ (k + 1) ∣ n) : n / 2 ^ k % 2 = 0 := by
  obtain ⟨m, hm⟩ := h
  subst hm
  rw [pow_succ, show 2 ^ k * 2 * m = 2 ^ k * (2 * m) by ring,
    Nat.mul_div_cancel_left _ (Nat.pos_pow_of_pos k (by omega))]
  omega

theorem ctz_unique (n k : Nat) (hn : n ≠ 0)
    (h1 : 2 ^ k ∣ n) (h2 : n / 2 ^ k % 2 = 1) : k = ctz n := by
  obtain ⟨hd, hq⟩ := ctz_spec n hn
  rcases Nat.lt_trichotomy k (ctz n) with h | h | h
  · have : 2 ^ (k + 1) ∣ n := dvd_trans (pow_dvd_pow 2 (by omega)) hd
    have := div_pow_succ_even n k this
    omega
  · exact h
  · have : 2 ^ (ctz n + 1) ∣ n := dvd_trans (pow_dvd_pow 2 (by omega)) h1
    have := div_pow_succ_even n (ctz n) this
    omega

theorem two_pow_dvd_iff_testBit (n k : Nat) :
    2 ^ k ∣ n ↔ ∀ i, i < k → n.testBit i = false := by
  rw [Nat.dvd_iff_mod_eq_zero]
  constructor
  · intro h i hik
    have hb := congrArg (fun t => t.testBit i) h
    simp only [Nat.testBit_mod_two_pow, Nat.zero_testBit] at hb
    rwa [decide_eq_true hik, Bool.true_and] at hb
  · intro h
    apply Nat.eq_of_testBit_eq
    intro i
    rw [Nat.testBit_mod_two_pow, Nat.zero_testBit]
    by_cases hik : i < k
    · rw [h i hik, Bool.and_false]
    · rw [decide_eq_false hik, Bool.false_and]

theorem testBit_ctz (n : Nat) (h : n ≠ 0) : n.testBit (ctz n) = true := by
  rw [Nat.testBit_to_div_mod]
  exact decide_eq_true (ctz_spec n h).2

theorem ctz_or (a b : Nat) (ha : a ≠ 0) (hb : b ≠ 0) :
    ctz (a ||| b) = min (ctz a) (ctz b) := by
  have hor : a ||| b ≠ 0 := by
    intro h0
    have := congrArg (fun t => t.testBit (ctz a)) h0
    simp only [Nat.testBit_or, Nat.zero_testBit] at this
    rw [testBit_ctz a ha] at this
    simp at this
  symm
  apply ctz_unique _ _ hor
  · rw [two_pow_dvd_iff_testBit]
    intro i hi
    rw [Nat.testBit_or]
    have hia := (two_pow_dvd_iff_testBit a (ctz a)).mp (ctz_spec a ha).1 i (by omega)
    have hib := (two_pow_dvd_iff_testBit b (ctz b)).mp (ctz_spec b hb).1 i (by omega)
    rw [hia, hib]
    rfl
  · have : (a ||| b).testBit (min (ctz a) (ctz b)) = true := by
      rw [Nat.testBit_or]
      rcases le_total (ctz a) (ctz b) with hab | hab
      · rw [min_eq_left hab, testBit_ctz a ha, Bool.true_or]
      · rw [min_eq_right hab, testBit_ctz b hb, Bool.or_true]
    rw [Nat.testBit_to_div_mod] at this
    exact of_decide_eq_true this

theorem oddPart_decomp (n : Nat) (h : n ≠ 0) :
    n = n / 2 ^ ctz n * 2 ^ ctz n := (Nat.div_mul_cancel (ctz_spec n h).1).symm

theorem oddPart_pos (n : Nat) (h : n ≠ 0) : 0 < n / 2 ^ ctz n := by
  rcases Nat.eq_zero_or_pos (n / 2 ^ ctz n) with h0 | h0
  · have := oddPart_decomp n h
    rw [h0, zero_mul] at this
    exact absurd this h
  · exact h0

theorem coprime_oddPart_two_pow (n k : Nat) (h : n ≠ 0) :
    Nat.Coprime (n / 2 ^ ctz n) (2 ^ k) := by
  apply Nat.Coprime.pow_right
  rw [Nat.coprime_two_right, Nat.odd_iff]
  exact (ctz_spec n h).2

/-- If `a` is odd, stripping the factors of two of `b` does not change
the GCD. -/
theorem gcd_oddPart_right (a b : Nat) (hodd : a % 2 = 1) (hb : b ≠ 0) :
    Nat.gcd a b = Nat.gcd a (b / 2 ^ ctz b) := by
  have hcop : Nat.Coprime (2 ^ ctz b) a :=
    Nat.Coprime.pow_left _ (Nat.coprime_two_left.mpr (Nat.odd_iff.mpr hodd))
  conv_lhs => rw [oddPart_decomp b hb]
  exact Nat.Coprime.gcd_mul_right_cancel_right _ hcop

theorem gcdLoopAux_succ (fuel a b : Nat) :
    gcdLoopAux (fuel + 1) a b =
      if b >>> ctz b < a then
        (if a - b >>> ctz b = 0 then b >>> ctz b
         else gcdLoopAux fuel (b >>> ctz b) (a - b >>> ctz b))
      else
        (if b >>> ctz b - a = 0 then a
         else gcdLoopAux fuel a (b >>> ctz b - a)) := by
  show (let b1 := b >>> ctz b
        let p := if b1 < a then (b1, a) else (a, b1)
        let b3 := p.2 - p.1
        if b3 = 0 then p.1 else gcdLoopAux fuel p.1 b3) = _
  by_cases h : b >>> ctz b < a <;> simp [h]

theorem gcdLoopAux_eq :
    ∀ fuel a b, a % 2 = 1 → 0 < a → 0 < b → a + b ≤ fuel →
      gcdLoopAux fuel a b = Nat.gcd a b := by
  intro fuel
  induction fuel with
  | zero => intro a b h1 h2 h3 h4; omega
  | succ fuel ih =>
    intro a b hodd ha hb hle
    have hbne : b ≠ 0 := by omega
    rw [gcdLoopAux_succ, Nat.shiftRight_eq_div_pow]
    have hb1pos : 0 < b / 2 ^ ctz b := oddPart_pos b hbne
    have hb1odd : b / 2 ^ ctz b % 2 = 1 := (ctz_spec b hbne).2
    have hb1le : b / 2 ^ ctz b ≤ b := Nat.div_le_self _ _
    have hgcdb1 : Nat.gcd a b = Nat.gcd a (b / 2 ^ ctz b) :=
      gcd_oddPart_right a b hodd hbne
    by_cases hlt : b / 2 ^ ctz b < a
    · rw [if_pos hlt, if_neg (by omega)]
      rw [ih (b / 2 ^ ctz b) (a - b / 2 ^ ctz b) hb1odd hb1pos (by omega) (by omega)]
      rw [Nat.gcd_sub_self_right (by omega), Nat.gcd_comm]
      exact hgcdb1.symm
    · rw [if_neg hlt]
      by_cases hz : b / 2 ^ ctz b - a = 0
      · rw [if_pos hz]
        have heq : b / 2 ^ ctz b = a := by omega
        rw [hgcdb1, heq, Nat.gcd_self]
      · rw [if_neg hz]
        rw [ih a (b / 2 ^ ctz b - a) hodd ha (by omega) (by omega)]
        rw [Nat.gcd_sub_self_right (by omega)]
        exact hgcdb1.symm

theorem gcd_oddPart_shift (a b : Nat) (ha : a ≠ 0) (hb : b ≠ 0) :
    Nat.gcd (a / 2 ^ ctz a) b * 2 ^ min (ctz a) (ctz b) = Nat.gcd a b := by
  have haodd : a / 2 ^ ctz a % 2 = 1 := (ctz_spec a ha).2
  have hbodd : b / 2 ^ ctz b % 2 = 1 := (ctz_spec b hb).2
  rw [gcd_oddPart_right (a / 2 ^ ctz a) b haodd hb]
  rcases le_total (ctz a) (ctz b) with hab | hab
  · rw [min_eq_left hab]
    conv_rhs => rw [oddPart_decomp a ha, oddPart_decomp b hb]
    rw [show (2 : Nat) ^ ctz b = 2 ^ (ctz b - ctz a) * 2 ^ ctz a by
      rw [← pow_add]; congr 1; omega]
    rw [← mul_assoc, Nat.gcd_mul_right]
    congr 1
    have hcop : Nat.Coprime (2 ^ (ctz b - ctz a)) (a / 2 ^ ctz a) :=
      Nat.Coprime.pow_left _ (Nat.coprime_two_left.mpr (Nat.odd_iff.mpr haodd))
    rw [Nat.Coprime.gcd_mul_right_cancel_right _ hcop]
  · rw [min_eq_right hab]
    conv_rhs => rw [oddPart_decomp a ha, oddPart_decomp b hb]
    rw [show (2 : Nat) ^ ctz a = 2 ^ (ctz a - ctz b) * 2 ^ ctz b by
      rw [← pow_add]; congr 1; omega]
    rw [← mul_assoc, Nat.gcd_mul_right]
    congr 1
    have hcop : Nat.Coprime (2 ^ (ctz a - ctz b)) (b / 2 ^ ctz b) :=
      Nat.Coprime.pow_left _ (Nat.coprime_two_left.mpr (Nat.odd_iff.mpr hbodd))
    rw [Nat.Coprime.gcd_mul_right_cancel _ hcop]

/-- `gcd64` computes the mathematical greatest common divisor. -/
theorem gcd64_eq_gcd (a b : Nat) : gcd64 a b = Nat.gcd a b := by
  unfold gcd64
  by_cases ha : a = 0
  · rw [if_pos ha, ha, Nat.gcd_zero_left]
  · rw [if_neg ha]
    by_cases hb : b = 0
    · rw [if_pos hb, hb, Nat.gcd_zero_right]
    · rw [if_neg hb]
      show gcdLoopAux (a + b) (a >>> ctz a) b <<< ctz (a ||| b) = Nat.gcd a b
      rw [Nat.shiftRight_eq_div_pow, Nat.shiftLeft_eq, ctz_or a b ha hb]
      rw [gcdLoopAux_eq (a + b) (a / 2 ^ ctz a) b (ctz_spec a ha).2
        (oddPart_pos a ha) (by omega)
        (by have := Nat.div_le_self a (2 ^ ctz a); omega)]
      exact gcd_oddPart_shift a b ha hb

/-! ### The integer root and the GMP verifier -/

theorem izRootAux_pow_le (n k : Nat) (hk : k ≠ 0) :
    ∀ bound, izRootAux n k bound ^ k ≤ n := by
  intro bound
  induction bound with
  | zero => simp [izRootAux, zero_pow hk]
  | succ r ih =>
    unfold izRootAux
    split
    · assumption
    · exact ih

theorem le_izRootAux (n k : Nat) :
    ∀ bound r, r ≤ bound → r ^ k ≤ n → r ≤ izRootAux n k bound := by
  intro bound
  induction bound with
  | zero => intro r h1 _; simpa [izRootAux] using h1
  | succ s ih =>
    intro r h1 h2
    unfold izRootAux
    by_cases hs : (s + 1) ^ k ≤ n
    · rw [if_pos hs]
      exact h1
    · rw [if_neg hs]
      have hrs : r ≤ s := by
        rcases Nat.lt_or_ge r (s + 1) with h | h
        · omega
        · have : r = s + 1 := by omega
          subst this
          exact absurd h2 hs
      exact ih r hrs h2

/-- If `n` is an exact `k`-th power of `r`, the truncated root is `r`. -/
theorem izRoot_exact (n k r : Nat) (hk : k ≠ 0) (h : r ^ k = n) : izRoot n k = r := by
  have hrle : r ≤ n := by
    rcases Nat.eq_zero_or_pos r with h0 | h0
    · omega
    · calc r ≤ r ^ k := Nat.le_self_pow hk r
        _ = n := h
  apply le_antisymm
  · have h1 : izRoot n k ^ k ≤ r ^ k := by
      rw [h]
      exact izRootAux_pow_le n k hk n
    exact (Nat.pow_le_pow_iff_left hk).mp h1
  · exact le_izRootAux n k n r hrle (le_of_eq h)

/-! ### Claim C4: the verifier contract -/

/-- C4: for `A, B ≥ 1`, `x, y, z ≥ 3` and `C_max < 2^64`,
`check_beal_hit_gmp` reports a hit iff `A^x + B^y` is an exact `z`-th
power of some `r ∈ [1, C_max]`, and on a hit it returns that root and
`gcd(A, gcd(B, r))`; in particular
`(A=2, B=2, x=6, y=6, z=7, C_max=1000)` yields `(true, 2, 2)` and
`(A=2, B=3, x=3, y=3, z=3, C_max=1000)` yields no hit. -/
theorem check_beal_hit_gmp_contract :
    (∀ A B x y z C_max c0 g0 : Nat, 1 ≤ A → 1 ≤ B → 3 ≤ x → 3 ≤ y → 3 ≤ z →
      C_max < 2 ^ 64 →
      (((check_beal_hit_gmp A B x y z C_max c0 g0).1 = true ↔
          ∃ r, 1 ≤ r ∧ r ≤ C_max ∧ r ^ z = A ^ x + B ^ y) ∧
        ((check_beal_hit_gmp A B x y z C_max c0 g0).1 = true →
          (check_beal_hit_gmp A B x y z C_max c0 g0).2.1 ^ z = A ^ x + B ^ y ∧
          1 ≤ (check_beal_hit_gmp A B x y z C_max c0 g0).2.1 ∧
          (check_beal_hit_gmp A B x y z C_max c0 g0).2.1 ≤ C_max ∧
          (check_beal_hit_gmp A B x y z C_max c0 g0).2.2 =
            Nat.gcd A (Nat.gcd B (check_beal_hit_gmp A B x y z C_max c0 g0).2.1)))) ∧
    check_beal_hit_gmp 2 2 6 6 7 1000 0 0 = (true, 2, 2) ∧
    (check_beal_hit_gmp 2 3 3 3 3 1000 0 0).1 = false := by
  refine ⟨?_, by decide, by decide⟩
  intro A B x y z C_max c0 g0 hA hB hx hy hz hCmax
  have hz0 : z ≠ 0 := by omega
  constructor
  · constructor
    · intro htrue
      simp only [check_beal_hit_gmp] at htrue
      by_cases hperf : izRoot (A ^ x + B ^ y) z ^ z = A ^ x + B ^ y
      · rw [if_pos hperf] at htrue
        by_cases hfit : izRoot (A ^ x + B ^ y) z < U64
        · rw [if_pos hfit] at htrue
          by_cases hrange : izRoot (A ^ x + B ^ y) z ≤ C_max ∧
              0 < izRoot (A ^ x + B ^ y) z
          · exact ⟨izRoot (A ^ x + B ^ y) z, hrange.2, hrange.1, hperf⟩
          · rw [if_neg hrange] at htrue
            simp at htrue
        · rw [if_neg hfit] at htrue
          simp at htrue
      · rw [if_neg hperf] at htrue
        simp at htrue
    · rintro ⟨r, hr1, hr2, hr3⟩
      have hroot : izRoot (A ^ x + B ^ y) z = r := izRoot_exact _ z r hz0 hr3
      simp only [check_beal_hit_gmp]
      rw [hroot, if_pos hr3, if_pos (show r < U64 by unfold U64; omega),
        if_pos ⟨hr2, by omega⟩]
  · intro htrue
    simp only [check_beal_hit_gmp] at htrue ⊢
    by_cases hperf : izRoot (A ^ x + B ^ y) z ^ z = A ^ x + B ^ y
    · rw [if_pos hperf] at htrue ⊢
      by_cases hfit : izRoot (A ^ x + B ^ y) z < U64
      · rw [if_pos hfit] at htrue ⊢
        by_cases hrange : izRoot (A ^ x + B ^ y) z ≤ C_max ∧
            0 < izRoot (A ^ x + B ^ y) z
        · rw [if_pos hrange] at htrue ⊢
          refine ⟨hperf, hrange.2, hrange.1, ?_⟩
          rw [gcd64_eq_gcd, gcd64_eq_gcd]
        · rw [if_neg hrange] at htrue
          simp at htrue
      · rw [if_neg hfit] at htrue
        simp at htrue
    · rw [if_neg hperf] at htrue
      simp at htrue

/-- Witness for C4: the general contract applied at the non-primitive
hit `2^6 + 2^6 = 2^7` and at the non-cube `2^3 + 3^3 = 35`. -/
theorem check_beal_hit_gmp_contract_witness :
    (check_beal_hit_gmp 2 2 6 6 7 1000 0 0).1 = true ∧
    (check_beal_hit_gmp 2 3 3 3 3 1000 0 0).1 = false :=
  ⟨((check_beal_hit_gmp_contract.1 2 2 6 6 7 1000 0 0 (by decide) (by decide)
      (by decide) (by decide) (by decide) (by norm_num)).1).mpr
    ⟨2, by decide, by decide, by decide⟩,
   check_beal_hit_gmp_contract.2.2⟩

/-! ### Claim C9: the verifier's frame property -/

/-- C9 (implicit): when `check_beal_hit_gmp` reports no hit, the two
out-parameters keep their prior values — they are written only on the
`true` branch. -/
theorem check_beal_hit_gmp_frame (A B x y z C_max c0 g0 : Nat)
    (h : (check_beal_hit_gmp A B x y z C_max c0 g0).1 = false) :
    (check_beal_hit_gmp A B x y z C_max c0 g0).2.1 = c0 ∧
    (check_beal_hit_gmp A B x y z C_max c0 g0).2.2 = g0 := by
  simp only [check_beal_hit_gmp] at h ⊢
  by_cases hperf : izRoot (A ^ x + B ^ y) z ^ z = A ^ x + B ^ y
  · rw [if_pos hperf] at h ⊢
    by_cases hfit : izRoot (A ^ x + B ^ y) z < U64
    · rw [if_pos hfit] at h ⊢
      by_cases hrange : izRoot (A ^ x + B ^ y) z ≤ C_max ∧
          0 < izRoot (A ^ x + B ^ y) z
      · rw [if_pos hrange] at h
        simp at h
      · rw [if_neg hrange]
        exact ⟨rfl, rfl⟩
    · rw [if_neg hfit]
      exact ⟨rfl, rfl⟩
  · rw [if_neg hperf]
    exact ⟨rfl, rfl⟩

/-- Witness for C9 at the miss `2^3 + 3^3 = 35` with prior out-values
`7` and `9`. -/
theorem check_beal_hit_gmp_frame_witness :
    (check_beal_hit_gmp 2 3 3 3 3 1000 7 9).2.1 = 7 ∧
    (check_beal_hit_gmp 2 3 3 3 3 1000 7 9).2.2 = 9 :=
  check_beal_hit_gmp_frame 2 3 3 3 3 1000 7 9 (by decide)

/-! ### Claim C5: the integrity digest -/

/-- C5: the `integrity_hash` computed by `log_complete` is the 64-bit
FNV-1a (offset basis `0xCBF29CE484222325`, prime `0x100000001B3`, all
arithmetic modulo `2^64`) of the fourteen quantities
`x, y, z, A_start, A_max, B_start, B_max, C_max, total_pairs,
gcd_filtered, mod_filtered, exact_checks, power_hits, primitive_hits`
absorbed in exactly this order (XOR then multiply), and its value fits
in 16 hex digits (`< 2^64`, printed with `%016` lowercase hex). -/
theorem log_complete_integrity_hash_spec :
    ∀ x y z A_start A_max B_start B_max C_max tp gf mf ec ph pr : Nat,
      log_complete_hash x y z A_start A_max B_start B_max C_max tp gf mf ec ph pr =
        fnv1a64 [x, y, z, A_start, A_max, B_start, B_max, C_max, tp, gf, mf, ec, ph, pr] ∧
      log_complete_hash x y z A_start A_max B_start B_max C_max tp gf mf ec ph pr < 2 ^ 64 := by
  intro x y z A_start A_max B_start B_max C_max tp gf mf ec ph pr
  constructor
  · rfl
  · show fnvStep _ pr < 2 ^ 64
    unfold fnvStep
    exact Nat.mod_lt _ (by norm_num [U64])

/-! ### Claim C8 (corrected): powmod -/

/-- Counterexample to C8 as stated: for the modulus `2^64 - 1` (which
is `≥ 1`) the squaring of `base = 2^32` wraps around `uint64_t`, and
`powmod` returns `0` while `(2^32)^2 mod (2^64 - 1) = 1`. -/
theorem powmod_overflow_counterexample :
    powmod (2 ^ 32) 2 (2 ^ 64 - 1) ≠ (2 ^ 32) ^ 2 % (2 ^ 64 - 1) := by decide

/-- C8 (amended): `powmod(base, exp, m)` returns `base^exp mod m` for
every base (reduction of `base` happens first, so large bases are
tolerated) and every exponent, whenever `m * m ≤ 2^64` — so no
intermediate product wraps; in particular for all sieve moduli
`m ≤ 71` — except the degenerate point `m = 1, exp = 0` where the C
code returns `1`. -/
theorem powmod_correct_amended (base exp m : Nat) (hm : 1 ≤ m)
    (hm2 : m * m ≤ 2 ^ 64) (h : 2 ≤ m ∨ 1 ≤ exp) :
    powmod base exp m = base ^ exp % m := by
  by_cases hm' : 2 ≤ m
  · exact powmod_eq base exp m hm' hm2
  · have hm1 : m = 1 := by omega
    have hexp : 1 ≤ exp := by
      rcases h with h | h
      · omega
      · exact h
    subst hm1
    rw [powmod_one base exp hexp, Nat.mod_one]

/-- Witness for the amended C8 at a large base and the largest sieve
modulus. -/
theorem powmod_correct_amended_witness :
    powmod 123456789 5 71 = 123456789 ^ 5 % 71 :=
  powmod_correct_amended 123456789 5 71 (by decide) (by decide) (Or.inl (by decide))

/-! ### Claim C10: count_sieve_survivors counts coprime survivors -/

theorem foldl_count_Ico (P : Nat → Prop) [DecidablePred P] (start : Nat) :
    ∀ n c, ((List.range n).map (start + ·)).foldl
        (fun c2 v => if P v then c2 + 1 else c2) c =
      c + ((Finset.Ico start (start + n)).filter P).card := by
  intro n
  induction n with
  | zero => intro c; simp
  | succ n ih =>
    intro c
    rw [List.range_succ, List.map_append, List.foldl_append, ih]
    rw [show start + (n + 1) = (start + n) + 1 by omega,
      Nat.Ico_succ_right_eq_insert_Ico (by omega), Finset.filter_insert]
    simp only [List.map_cons, List.map_nil, List.foldl_cons, List.foldl_nil]
    by_cases hP : P (start + n)
    · rw [if_pos hP, if_pos hP, Finset.card_insert_of_not_mem (fun hmem => by
        rw [Finset.mem_filter, Finset.mem_Ico] at hmem; omega)]
      omega
    · rw [if_neg hP, if_neg hP]

theorem foldl_add_Ico (g : Nat → Nat) (start : Nat) :
    ∀ n c, ((List.range n).map (start + ·)).foldl (fun c2 v => c2 + g v) c =
      c + ∑ v ∈ Finset.Ico start (start + n), g v := by
  intro n
  induction n with
  | zero => intro c; simp
  | succ n ih =>
    intro c
    rw [List.range_succ, List.map_append, List.foldl_append, ih]
    rw [show start + (n + 1) = (start + n) + 1 by omega,
      Nat.Ico_succ_right_eq_insert_Ico (by omega), Finset.sum_insert]
    · simp only [List.map_cons, List.map_nil, List.foldl_cons, List.foldl_nil]
      omega
    · intro hmem
      rw [Finset.mem_Ico] at hmem
      omega

/-- C10 (implicit): `count_sieve_survivors` counts exactly the pairs of
the rectangle that are coprime according to `gcd64` AND survive the
scalar sieve — pairs with `gcd64(A, B) > 1` are excluded even when they
would survive. -/
theorem count_sieve_survivors_spec (A_start A_end B_start B_end : Nat)
    (data : PrecomputedData) :
    count_sieve_survivors A_start A_end B_start B_end data =
      ((Finset.Icc A_start A_end ×ˢ Finset.Icc B_start B_end).filter
        (fun q => gcd64 q.1 q.2 = 1 ∧ sieve_survives_scalar q.1 q.2 data = true)).card := by
  have hIcoB : Finset.Ico B_start (B_start + (B_end + 1 - B_start)) =
      Finset.Icc B_start B_end := by
    ext v
    rw [Finset.mem_Ico, Finset.mem_Icc]
    omega
  have hIcoA : Finset.Ico A_start (A_start + (A_end + 1 - A_start)) =
      Finset.Icc A_start A_end := by
    ext v
    rw [Finset.mem_Ico, Finset.mem_Icc]
    omega
  unfold count_sieve_survivors
  have hfun : (fun (c : Nat) (A : Nat) =>
      ((List.range (B_end + 1 - B_start)).map (B_start + ·)).foldl
        (fun c2 B => if gcd64 A B = 1 ∧ sieve_survives_scalar A B data = true
          then c2 + 1 else c2) c) =
      fun (c : Nat) (A : Nat) => c + ((Finset.Icc B_start B_end).filter
        (fun B => gcd64 A B = 1 ∧ sieve_survives_scalar A B data = true)).card := by
    funext c A
    rw [foldl_count_Ico _ B_start _ c, hIcoB]
  rw [hfun, foldl_add_Ico _ A_start _ 0, hIcoA, Nat.zero_add]
  rw [Finset.card_filter, Finset.sum_product]
  apply Finset.sum_congr rfl
  intro A _
  rw [Finset.card_filter]

/-! ### Claim C6: counter partition invariant -/

/-- The partition invariant on the accumulated counters. -/
def counts_ok (r : SearchResults) : Prop :=
  r.gcd_filtered + r.mod_filtered + r.exact_checks = r.total_pairs

theorem foldl_preserve {α β : Type} (I : α → Prop) (f : α → β → α)
    (hf : ∀ a b, I a → I (f a b)) :
    ∀ (L : List β) (a : α), I a → I (L.foldl f a) := by
  intro L
  induction L with
  | nil => intro a h; exact h
  | cons b L ih => intro a h; exact ih (f a b) (hf a b h)

theorem processLane_counts (x y z C_max A B survivors : Nat)
    (acc : SearchResults) (lane : Nat) (h : counts_ok acc) :
    counts_ok (processLane x y z C_max A B survivors acc lane) := by
  unfold counts_ok at h ⊢
  simp only [processLane]
  split_ifs <;> simp <;> omega

theorem bBlockLoop_counts (x y z C_max : Nat) (data : PrecomputedData) (A B_max : Nat) :
    ∀ fuel B acc, counts_ok acc → counts_ok (bBlockLoop x y z C_max data A B_max fuel B acc) := by
  intro fuel
  induction fuel with
  | zero => intro B acc h; exact h
  | succ fuel ih =>
    intro B acc h
    unfold bBlockLoop
    split
    · exact ih _ _ (foldl_preserve counts_ok _
        (fun a b ha => processLane_counts x y z C_max A B _ a b ha) _ acc h)
    · exact h

/-- C6: over any completed run of the search loop, each tested pair is
counted in exactly one of the three filter counters, so
`gcd_filtered + mod_filtered + exact_checks = total_pairs`. -/
theorem search_parallel_counter_partition (x y z A_start A_max B_start B_max C_max : Nat) :
    (search_parallel x y z A_start A_max B_start B_max C_max).gcd_filtered +
      (search_parallel x y z A_start A_max B_start B_max C_max).mod_filtered +
      (search_parallel x y z A_start A_max B_start B_max C_max).exact_checks =
      (search_parallel x y z A_start A_max B_start B_max C_max).total_pairs := by
  show counts_ok (search_parallel x y z A_start A_max B_start B_max C_max)
  unfold search_parallel
  apply foldl_preserve counts_ok
  · intro a b ha
    exact bBlockLoop_counts x y z C_max _ b B_max _ B_start a ha
  · rfl

/-! ### Claim C7: exit codes -/

/-- C7: with valid parameters the process exits `42` exactly when a
primitive counterexample was recorded and `0` otherwise; any usage
error (exponent `< 3`, start `< 1`, or max `< start`) exits `1`
(non-zero and different from 42) before any search work. -/
theorem main_exit_codes (x y z A_start A_max B_start B_max C_max : Nat) :
    ((3 ≤ x ∧ 3 ≤ y ∧ 3 ≤ z ∧ 1 ≤ A_start ∧ 1 ≤ B_start ∧
        A_start ≤ A_max ∧ B_start ≤ B_max) →
      main_exit x y z A_start A_max B_start B_max C_max =
        (if 0 < primitive_hits (search_parallel x y z A_start A_max B_start B_max C_max)
         then 42 else 0)) ∧
    (¬ (3 ≤ x ∧ 3 ≤ y ∧ 3 ≤ z ∧ 1 ≤ A_start ∧ 1 ≤ B_start ∧
        A_start ≤ A_max ∧ B_start ≤ B_max) →
      main_exit x y z A_start A_max B_start B_max C_max = 1) := by
  constructor
  · intro hvalid
    unfold main_exit
    rw [if_neg (by omega), if_neg (by omega), if_neg (by omega)]
  · intro hinvalid
    unfold main_exit
    by_cases h1 : x < 3 ∨ y < 3 ∨ z < 3
    · rw [if_pos h1]
    · rw [if_neg h1]
      by_cases h2 : A_start < 1 ∨ B_start < 1
      · rw [if_pos h2]
      · rw [if_neg h2, if_pos (by omega)]

/-- Witness for C7: a clean 2×2 run of signature `(3, 3, 3)` exits `0`,
and `x = 2` is rejected with exit code `1`. -/
theorem main_exit_codes_witness :
    (main_exit 3 3 3 1 2 1 2 10 =
      (if 0 < primitive_hits (search_parallel 3 3 3 1 2 1 2 10) then 42 else 0)) ∧
    main_exit 2 3 3 1 2 1 2 10 = 1 ∧
    main_exit 3 3 3 1 2 1 2 10 = 0 :=
  ⟨(main_exit_codes 3 3 3 1 2 1 2 10).1 (by norm_num),
   (main_exit_codes 2 3 3 1 2 1 2 10).2 (by norm_num),
   by decide⟩
